import Mathlib

/-!
Verification of the `stitchr` mosaic assembler (`stitchr.go`).

The embedding models the Go `image` primitives used by the program:
an RGBA image is a width, a height and a pixel map; `RGBAAt` returns the
zero color outside the bounds and `SetRGBA` silently drops out-of-bounds
writes, exactly as `image.RGBA.RGBAAt` / `SetRGBA` do.  Channel values are
natural numbers; the Go `uint8` wrap-around of channel arithmetic is made
explicit with `% 256`.  The Go `float64` blend arithmetic is modelled with
exact rational arithmetic; the `uint8(...)` conversion of a non-negative
float is modelled by `Int.toNat ∘ Int.floor` (truncation).
-/

structure RGBAColor where
  r : Nat
  g : Nat
  b : Nat
  a : Nat
deriving DecidableEq, Repr

def RGBAColor.zero : RGBAColor := ⟨0, 0, 0, 0⟩

structure RGBAImage where
  w : Nat
  h : Nat
  pix : Int → Int → RGBAColor

/-- `image.RGBA.RGBAAt`: the pixel inside the bounds, the zero color outside. -/
def RGBAImage.RGBAAt (img : RGBAImage) (x y : Int) : RGBAColor :=
  if 0 ≤ x ∧ x < (img.w : Int) ∧ 0 ≤ y ∧ y < (img.h : Int) then img.pix x y
  else RGBAColor.zero

/-- `image.RGBA.SetRGBA`: writes the pixel inside the bounds, no-op outside. -/
def RGBAImage.SetRGBA (img : RGBAImage) (x y : Int) (c : RGBAColor) : RGBAImage :=
  if 0 ≤ x ∧ x < (img.w : Int) ∧ 0 ≤ y ∧ y < (img.h : Int) then
    ⟨img.w, img.h, fun px py => if px = x ∧ py = y then c else img.pix px py⟩
  else img

/-- `image.NewRGBA(image.Rect(0,0,w,h))`: a zero-initialized canvas; `image.Rect`
canonicalizes a negative extent by swapping the corners, so the size is `|w| × |h|`. -/
def newRGBA (w h : Int) : RGBAImage := ⟨w.natAbs, h.natAbs, fun _ _ => RGBAColor.zero⟩

/-- One channel of `sumImages`: `r := dstC.R + srcC.R` is a `uint8` addition, which
wraps modulo 256; the subsequent `if r > 255 { r = 255 }` of the source mirrors a
comparison that can never hold for a `uint8` value. -/
def sumChan (d s : Nat) : Nat :=
  let v := (d + s) % 256
  if v > 255 then 255 else v

/-- The pixel written by the body of the `sumImages` loop. -/
def sumPixel (srcC dstC : RGBAColor) (_p : Nat × Nat) : RGBAColor :=
  ⟨sumChan dstC.r srcC.r, sumChan dstC.g srcC.g, sumChan dstC.b srcC.b, sumChan dstC.a srcC.a⟩

/-- The `alphaX`/`alphaY` computation of `blendImages`: initialized to `1.0`, then the
`if overlapX > 0 && x < overlapX` / `else if overlapX > 0 && x >= Dx-overlapX` cascade. -/
def alphaCoord (v : Nat) (size overlap : Int) : ℚ :=
  if 0 < overlap ∧ (v : Int) < overlap then (v : ℚ) / (overlap : ℚ)
  else if 0 < overlap ∧ size - overlap ≤ (v : Int) then ((size : ℚ) - (v : ℚ) - 1) / (overlap : ℚ)
  else 1

/-- One channel of `blendImages`: `uint8(float64(srcC.R)*alpha + float64(dstC.R)*(1-alpha))`.
The Go conversion truncates; on the non-negative values arising here that is the floor. -/
def blendChan (s d : Nat) (alpha : ℚ) : Nat :=
  (⌊alpha * (s : ℚ) + (1 - alpha) * (d : ℚ)⌋).toNat

/-- The pixel written by the body of the `blendImages` loop;
`alpha := alphaX; if alphaY < alpha { alpha = alphaY }`. -/
def blendPixel (tw th : Nat) (overlapX overlapY : Int) (srcC dstC : RGBAColor)
    (p : Nat × Nat) : RGBAColor :=
  let alphaX := alphaCoord p.1 (tw : Int) overlapX
  let alphaY := alphaCoord p.2 (th : Int) overlapY
  let alpha := if alphaY < alphaX then alphaY else alphaX
  ⟨blendChan srcC.r dstC.r alpha, blendChan srcC.g dstC.g alpha,
   blendChan srcC.b dstC.b alpha, blendChan srcC.a dstC.a alpha⟩

/-- The pixel visit order of the nested loops `for y ... for x ...` of both
compositing functions: `y`-major, `x` inside. -/
def allPixels (w h : Nat) : List (Nat × Nat) :=
  (List.range h).flatMap fun y => (List.range w).map fun x => (x, y)

/-- The shared loop body of `sumImages` and `blendImages`: skip when
`dstX >= dst.Bounds().Dx() || dstY >= dst.Bounds().Dy()`, otherwise read the source and
destination pixels and write the composited pixel. -/
def compositeStep (f : RGBAColor → RGBAColor → Nat × Nat → RGBAColor)
    (src : RGBAImage) (x0 y0 : Int) (d : RGBAImage) (p : Nat × Nat) : RGBAImage :=
  if (d.w : Int) ≤ x0 + (p.1 : Int) ∨ (d.h : Int) ≤ y0 + (p.2 : Int) then d
  else d.SetRGBA (x0 + (p.1 : Int)) (y0 + (p.2 : Int))
    (f (src.RGBAAt p.1 p.2) (d.RGBAAt (x0 + (p.1 : Int)) (y0 + (p.2 : Int))) p)

/-- `sumImages(dst, src, x0, y0)` of the source. -/
def sumImages (dst src : RGBAImage) (x0 y0 : Int) : RGBAImage :=
  (allPixels src.w src.h).foldl (compositeStep sumPixel src x0 y0) dst

/-- `blendImages(dst, src, x0, y0, overlapX, overlapY)` of the source. -/
def blendImages (dst src : RGBAImage) (x0 y0 overlapX overlapY : Int) : RGBAImage :=
  (allPixels src.w src.h).foldl
    (compositeStep (blendPixel src.w src.h overlapX overlapY) src x0 y0) dst

/-- The failure modes of `mosaic`: the two `fmt.Errorf` returns, plus
`indexOutOfRange` for the run-time panic of an out-of-range `imgs[...]` access. -/
inductive MosaicError where
  | countMismatch (got expected : Nat)
  | invalidScanMode (s : String)
  | indexOutOfRange
deriving DecidableEq, Repr

/-- One column of the vertical snake: `if c%2 != 0` rows top-to-bottom,
else rows bottom-to-top. -/
def blockVertical (rows c : Nat) : List (Nat × Nat) :=
  if c % 2 ≠ 0 then (List.range rows).map fun r => (r, c)
  else (List.range rows).reverse.map fun r => (r, c)

/-- The `(row, col)` visit order of the `case "vertical", ""` branch of `mosaic`. -/
def planVertical (rows cols : Nat) : List (Nat × Nat) :=
  (List.range cols).flatMap (blockVertical rows)

/-- One row of the horizontal snake: `if r%2 == 0` columns left-to-right,
else columns right-to-left. -/
def blockHorizontal (cols r : Nat) : List (Nat × Nat) :=
  if r % 2 = 0 then (List.range cols).map fun c => (r, c)
  else (List.range cols).reverse.map fun c => (r, c)

/-- The `(row, col)` visit order of the `case "horizontal"` branch of `mosaic`. -/
def planHorizontal (rows cols : Nat) : List (Nat × Nat) :=
  (List.range rows).flatMap (blockHorizontal cols)

/-- The snake loops of `mosaic`: place `imgs[idx]` at `(c*stepX, r*stepY)` for each
visited `(r, c)`, incrementing `idx`; an out-of-range access is the Go panic. -/
def placeAll (imgs : List RGBAImage) (stepX stepY : Int) :
    List (Nat × Nat) → Nat → RGBAImage → Except MosaicError RGBAImage
  | [], _, out => .ok out
  | rc :: rest, idx, out =>
    match imgs[idx]? with
    | none => .error .indexOutOfRange
    | some img =>
        placeAll imgs stepX stepY rest (idx + 1)
          (sumImages out img ((rc.2 : Int) * stepX) ((rc.1 : Int) * stepY))

/-- `mosaic(imgs, rows, cols, overlapX, overlapY, snake)` of the source. -/
def mosaic (imgs : List RGBAImage) (rows cols : Nat) (overlapX overlapY : Int)
    (snake : String) : Except MosaicError RGBAImage :=
  if imgs.length ≠ rows * cols then
    .error (.countMismatch imgs.length (rows * cols))
  else
    match imgs.head? with
    | none => .error .indexOutOfRange
    | some img0 =>
      let stepX : Int := (img0.w : Int) - overlapX
      let stepY : Int := (img0.h : Int) - overlapY
      let totalW := stepX * (cols : Int) + overlapX
      let totalH := stepY * (rows : Int) + overlapY
      let out := newRGBA totalW totalH
      if snake = "horizontal" then
        placeAll imgs stepX stepY (planHorizontal rows cols) 0 out
      else if snake = "vertical" ∨ snake = "" then
        placeAll imgs stepX stepY (planVertical rows cols) 0 out
      else
        .error (.invalidScanMode snake)

/-- The compositing trace of a run: `sumImages` applied tile by tile, where the `i`-th
tile of the zipped list is placed at the pixel offset `(col·stepX, row·stepY)` of the
`i`-th planned `(row, col)` pair. -/
def composeByPlan (stepX stepY : Int) :
    List ((Nat × Nat) × RGBAImage) → RGBAImage → RGBAImage
  | [], out => out
  | (rc, img) :: rest, out =>
      composeByPlan stepX stepY rest
        (sumImages out img ((rc.2 : Int) * stepX) ((rc.1 : Int) * stepY))

/-- An all-one-value test image. -/
def solid (w h v : Nat) : RGBAImage := ⟨w, h, fun _ _ => ⟨v, v, v, v⟩⟩

/-! ### Basic properties of the pixel primitives -/

theorem SetRGBA_w (img : RGBAImage) (x y : Int) (c : RGBAColor) :
    (img.SetRGBA x y c).w = img.w := by
  unfold RGBAImage.SetRGBA
  split <;> rfl

theorem SetRGBA_h (img : RGBAImage) (x y : Int) (c : RGBAColor) :
    (img.SetRGBA x y c).h = img.h := by
  unfold RGBAImage.SetRGBA
  split <;> rfl

theorem SetRGBA_pix_ne (img : RGBAImage) (x y : Int) (c : RGBAColor) (px py : Int)
    (hne : ¬(px = x ∧ py = y)) :
    (img.SetRGBA x y c).pix px py = img.pix px py := by
  unfold RGBAImage.SetRGBA
  split
  · simp only [if_neg hne]
  · rfl

theorem SetRGBA_pix_eq (img : RGBAImage) (x y : Int) (c : RGBAColor)
    (hin : 0 ≤ x ∧ x < (img.w : Int) ∧ 0 ≤ y ∧ y < (img.h : Int)) :
    (img.SetRGBA x y c).pix x y = c := by
  unfold RGBAImage.SetRGBA
  rw [if_pos hin]
  simp

theorem compositeStep_w (f : RGBAColor → RGBAColor → Nat × Nat → RGBAColor)
    (src : RGBAImage) (x0 y0 : Int) (d : RGBAImage) (p : Nat × Nat) :
    (compositeStep f src x0 y0 d p).w = d.w := by
  unfold compositeStep
  split
  · rfl
  · exact SetRGBA_w ..

theorem compositeStep_h (f : RGBAColor → RGBAColor → Nat × Nat → RGBAColor)
    (src : RGBAImage) (x0 y0 : Int) (d : RGBAImage) (p : Nat × Nat) :
    (compositeStep f src x0 y0 d p).h = d.h := by
  unfold compositeStep
  split
  · rfl
  · exact SetRGBA_h ..

/-- A composite step only writes at its own target coordinate. -/
theorem compositeStep_pix_ne (f : RGBAColor → RGBAColor → Nat × Nat → RGBAColor)
    (src : RGBAImage) (x0 y0 : Int) (d : RGBAImage) (p : Nat × Nat) (px py : Int)
    (hne : ¬(px = x0 + (p.1 : Int) ∧ py = y0 + (p.2 : Int))) :
    (compositeStep f src x0 y0 d p).pix px py = d.pix px py := by
  unfold compositeStep
  split
  · rfl
  · exact SetRGBA_pix_ne _ _ _ _ _ _ hne

/-- Folding composite steps over pairs that all miss `(px, py)` leaves it unchanged. -/
theorem foldl_compositeStep_pix_ne (f : RGBAColor → RGBAColor → Nat × Nat → RGBAColor)
    (src : RGBAImage) (x0 y0 : Int) (px py : Int) :
    ∀ (ps : List (Nat × Nat)) (d : RGBAImage),
      (∀ p ∈ ps, ¬(px = x0 + (p.1 : Int) ∧ py = y0 + (p.2 : Int))) →
      (ps.foldl (compositeStep f src x0 y0) d).pix px py = d.pix px py := by
  intro ps
  induction ps with
  | nil => intro d _; rfl
  | cons p rest ih =>
    intro d hmiss
    rw [List.foldl_cons, ih _ fun q hq => hmiss q (List.mem_cons_of_mem _ hq),
      compositeStep_pix_ne _ _ _ _ _ _ _ _ (hmiss p (List.mem_cons_self _ _))]

theorem foldl_compositeStep_w (f : RGBAColor → RGBAColor → Nat × Nat → RGBAColor)
    (src : RGBAImage) (x0 y0 : Int) :
    ∀ (ps : List (Nat × Nat)) (d : RGBAImage),
      (ps.foldl (compositeStep f src x0 y0) d).w = d.w := by
  intro ps
  induction ps with
  | nil => intro d; rfl
  | cons p rest ih => intro d; rw [List.foldl_cons, ih, compositeStep_w]

theorem foldl_compositeStep_h (f : RGBAColor → RGBAColor → Nat × Nat → RGBAColor)
    (src : RGBAImage) (x0 y0 : Int) :
    ∀ (ps : List (Nat × Nat)) (d : RGBAImage),
      (ps.foldl (compositeStep f src x0 y0) d).h = d.h := by
  intro ps
  induction ps with
  | nil => intro d; rfl
  | cons p rest ih => intro d; rw [List.foldl_cons, ih, compositeStep_h]

/-- Each pixel of the destination rectangle is visited exactly once, its read sees the
original destination value, and its written value survives the rest of the fold. -/
theorem foldl_compositeStep_pix_hit (f : RGBAColor → RGBAColor → Nat × Nat → RGBAColor)
    (src : RGBAImage) (x0 y0 : Int) (x y : Nat) :
    ∀ (ps : List (Nat × Nat)) (d : RGBAImage),
      (x, y) ∈ ps → ps.Nodup →
      0 ≤ x0 + (x : Int) → x0 + (x : Int) < (d.w : Int) →
      0 ≤ y0 + (y : Int) → y0 + (y : Int) < (d.h : Int) →
      (ps.foldl (compositeStep f src x0 y0) d).pix (x0 + (x : Int)) (y0 + (y : Int))
        = f (src.RGBAAt x y) (d.RGBAAt (x0 + (x : Int)) (y0 + (y : Int))) (x, y) := by
  intro ps
  induction ps with
  | nil => intro d hmem; exact absurd hmem (List.not_mem_nil _)
  | cons p rest ih =>
    intro d hmem hnd hx1 hx2 hy1 hy2
    have hnd_rest : rest.Nodup := (List.nodup_cons.mp hnd).2
    rcases List.mem_cons.mp hmem with heq | hmem_rest
    · subst heq
      have hnotin : (x, y) ∉ rest := (List.nodup_cons.mp hnd).1
      rw [List.foldl_cons]
      have hmiss : ∀ q ∈ rest, ¬(x0 + (x : Int) = x0 + (q.1 : Int) ∧
          y0 + (y : Int) = y0 + (q.2 : Int)) := by
        intro q hq ⟨h1, h2⟩
        have hq1 : (q.1 : Int) = (x : Int) := by omega
        have hq2 : (q.2 : Int) = (y : Int) := by omega
        have : q = (x, y) := by
          cases q
          simp only [Prod.mk.injEq]
          exact ⟨Nat.cast_injective hq1, Nat.cast_injective hq2⟩
        exact hnotin (this ▸ hq)
      rw [foldl_compositeStep_pix_ne _ _ _ _ _ _ _ _ hmiss]
      unfold compositeStep
      rw [if_neg (by push_neg; omega)]
      exact SetRGBA_pix_eq _ _ _ _ ⟨hx1, hx2, hy1, hy2⟩
    · rw [List.foldl_cons]
      by_cases hps : p = (x, y)
      · exact absurd (hps ▸ hmem_rest) (List.nodup_cons.mp hnd).1
      · have hne : ¬(x0 + (x : Int) = x0 + (p.1 : Int) ∧
            y0 + (y : Int) = y0 + (p.2 : Int)) := by
          intro ⟨h1, h2⟩
          have hp1 : (p.1 : Int) = (x : Int) := by omega
          have hp2 : (p.2 : Int) = (y : Int) := by omega
          exact hps (by
            cases p
            simp only [Prod.mk.injEq]
            exact ⟨Nat.cast_injective hp1, Nat.cast_injective hp2⟩)
        have hw := compositeStep_w f src x0 y0 d p
        have hh := compositeStep_h f src x0 y0 d p
        have hpix := compositeStep_pix_ne f src x0 y0 d p _ _ hne
        have hAt : (compositeStep f src x0 y0 d p).RGBAAt (x0 + (x : Int)) (y0 + (y : Int))
            = d.RGBAAt (x0 + (x : Int)) (y0 + (y : Int)) := by
          unfold RGBAImage.RGBAAt
          rw [hw, hh, hpix]
        rw [← hAt, ih _ hmem_rest hnd_rest hx1 (by rw [hw]; exact hx2) hy1
          (by rw [hh]; exact hy2)]

/-- Membership in the pixel visit order. -/
theorem mem_allPixels (w h : Nat) (p : Nat × Nat) :
    p ∈ allPixels w h ↔ p.1 < w ∧ p.2 < h := by
  unfold allPixels
  constructor
  · intro hm
    obtain ⟨y, hy, hm⟩ := List.mem_flatMap.mp hm
    obtain ⟨x, hx, rfl⟩ := List.mem_map.mp hm
    exact ⟨List.mem_range.mp hx, List.mem_range.mp hy⟩
  · intro ⟨h1, h2⟩
    exact List.mem_flatMap.mpr ⟨p.2, List.mem_range.mpr h2,
      List.mem_map.mpr ⟨p.1, List.mem_range.mpr h1, rfl⟩⟩

theorem nodup_allPixels (w h : Nat) : (allPixels w h).Nodup := by
  unfold allPixels
  refine List.nodup_flatMap.mpr ⟨fun y _ => ?_, ?_⟩
  · exact (List.nodup_range w).map fun a b hab => by
      simpa using congrArg Prod.fst hab
  · refine (List.nodup_range h).pairwise_of_forall_ne fun y1 h1 y2 h2 hne => ?_
    intro p hp1 hp2
    obtain ⟨x1, _, rfl⟩ := List.mem_map.mp hp1
    obtain ⟨x2, _, heq⟩ := List.mem_map.mp hp2
    exact hne (by simpa using (congrArg Prod.snd heq).symm)

/-! ### Properties of the snake placement plans -/

theorem length_blockVertical (rows c : Nat) : (blockVertical rows c).length = rows := by
  unfold blockVertical
  split <;> simp

theorem length_blockHorizontal (cols r : Nat) : (blockHorizontal cols r).length = cols := by
  unfold blockHorizontal
  split <;> simp

theorem mem_blockVertical (rows c : Nat) (p : Nat × Nat) :
    p ∈ blockVertical rows c ↔ p.1 < rows ∧ p.2 = c := by
  obtain ⟨a, b⟩ := p
  unfold blockVertical
  split <;>
    simp only [List.mem_map, List.mem_reverse, List.mem_range, Prod.mk.injEq] <;>
    exact ⟨fun ⟨r, hr, he, hc⟩ => ⟨he ▸ hr, hc.symm⟩, fun ⟨h1, h2⟩ => ⟨a, h1, rfl, h2.symm⟩⟩

theorem mem_blockHorizontal (cols r : Nat) (p : Nat × Nat) :
    p ∈ blockHorizontal cols r ↔ p.1 = r ∧ p.2 < cols := by
  obtain ⟨a, b⟩ := p
  unfold blockHorizontal
  split <;>
    simp only [List.mem_map, List.mem_reverse, List.mem_range, Prod.mk.injEq] <;>
    exact ⟨fun ⟨c, hc, hr, he⟩ => ⟨hr.symm, he ▸ hc⟩, fun ⟨h1, h2⟩ => ⟨b, h2, h1.symm, rfl⟩⟩

theorem length_planVertical (rows cols : Nat) :
    (planVertical rows cols).length = rows * cols := by
  unfold planVertical
  rw [List.length_flatMap]
  simp only [Function.comp_def, length_blockVertical, List.map_const', List.sum_replicate,
    List.length_range, smul_eq_mul]
  exact Nat.mul_comm _ _

theorem length_planHorizontal (rows cols : Nat) :
    (planHorizontal rows cols).length = rows * cols := by
  unfold planHorizontal
  rw [List.length_flatMap]
  simp only [Function.comp_def, length_blockHorizontal, List.map_const', List.sum_replicate,
    List.length_range, smul_eq_mul]

theorem mem_planVertical (rows cols : Nat) (p : Nat × Nat) :
    p ∈ planVertical rows cols ↔ p.1 < rows ∧ p.2 < cols := by
  unfold planVertical
  rw [List.mem_flatMap]
  constructor
  · intro ⟨c, hc, hm⟩
    obtain ⟨h1, h2⟩ := (mem_blockVertical rows c p).mp hm
    exact ⟨h1, h2 ▸ List.mem_range.mp hc⟩
  · intro ⟨h1, h2⟩
    exact ⟨p.2, List.mem_range.mpr h2, (mem_blockVertical rows p.2 p).mpr ⟨h1, rfl⟩⟩

theorem mem_planHorizontal (rows cols : Nat) (p : Nat × Nat) :
    p ∈ planHorizontal rows cols ↔ p.1 < rows ∧ p.2 < cols := by
  unfold planHorizontal
  rw [List.mem_flatMap]
  constructor
  · intro ⟨r, hr, hm⟩
    obtain ⟨h1, h2⟩ := (mem_blockHorizontal cols r p).mp hm
    exact ⟨h1 ▸ List.mem_range.mp hr, h2⟩
  · intro ⟨h1, h2⟩
    exact ⟨p.1, List.mem_range.mpr h1, (mem_blockHorizontal cols p.1 p).mpr ⟨rfl, h2⟩⟩

theorem nodup_planVertical (rows cols : Nat) : (planVertical rows cols).Nodup := by
  unfold planVertical
  refine List.nodup_flatMap.mpr ⟨fun c _ => ?_, ?_⟩
  · unfold blockVertical
    split
    · exact (List.nodup_range rows).map fun a b hab => by simpa using congrArg Prod.fst hab
    · exact (List.nodup_reverse.mpr (List.nodup_range rows)).map fun a b hab => by
        simpa using congrArg Prod.fst hab
  · refine (List.nodup_range cols).pairwise_of_forall_ne fun c1 _ c2 _ hne p hp1 hp2 => ?_
    exact hne (((mem_blockVertical rows c1 p).mp hp1).2 ▸
      ((mem_blockVertical rows c2 p).mp hp2).2 ▸ rfl)

theorem nodup_planHorizontal (rows cols : Nat) : (planHorizontal rows cols).Nodup := by
  unfold planHorizontal
  refine List.nodup_flatMap.mpr ⟨fun r _ => ?_, ?_⟩
  · unfold blockHorizontal
    split
    · exact (List.nodup_range cols).map fun a b hab => by simpa using congrArg Prod.snd hab
    · exact (List.nodup_reverse.mpr (List.nodup_range cols)).map fun a b hab => by
        simpa using congrArg Prod.snd hab
  · refine (List.nodup_range rows).pairwise_of_forall_ne fun r1 _ r2 _ hne p hp1 hp2 => ?_
    exact hne (((mem_blockHorizontal cols r1 p).mp hp1).1 ▸
      ((mem_blockHorizontal cols r2 p).mp hp2).1 ▸ rfl)

theorem getElem?_reverse_range (n j : Nat) (hj : j < n) :
    (List.range n).reverse[j]? = some (n - 1 - j) := by
  rw [List.getElem?_reverse (by simpa using hj), List.length_range,
    List.getElem?_range (by omega)]

theorem getElem?_blockVertical (rows c j : Nat) (hj : j < rows) :
    (blockVertical rows c)[j]? = some (if c % 2 = 0 then rows - 1 - j else j, c) := by
  unfold blockVertical
  rcases Nat.eq_zero_or_pos (c % 2) with hc | hc
  · rw [if_neg (by omega), if_pos hc, List.getElem?_map, getElem?_reverse_range _ _ hj,
      Option.map_some']
  · rw [if_pos (by omega), if_neg (by omega), List.getElem?_map,
      List.getElem?_range hj, Option.map_some']

theorem getElem?_blockHorizontal (cols r j : Nat) (hj : j < cols) :
    (blockHorizontal cols r)[j]? = some (r, if r % 2 = 0 then j else cols - 1 - j) := by
  unfold blockHorizontal
  rcases Nat.eq_zero_or_pos (r % 2) with hr | hr
  · rw [if_pos hr, if_pos hr, List.getElem?_map, List.getElem?_range hj, Option.map_some']
  · rw [if_neg (by omega), if_neg (by omega), List.getElem?_map,
      getElem?_reverse_range _ _ hj, Option.map_some']

theorem planVertical_succ (rows cols : Nat) :
    planVertical rows (cols + 1) = planVertical rows cols ++ blockVertical rows cols := by
  unfold planVertical
  rw [List.range_succ, List.flatMap_append]
  simp

theorem planHorizontal_succ (rows cols : Nat) :
    planHorizontal (rows + 1) cols = planHorizontal rows cols ++ blockHorizontal cols rows := by
  unfold planHorizontal
  rw [List.range_succ, List.flatMap_append]
  simp

theorem getElem?_planVertical (rows : Nat) :
    ∀ (cols c j : Nat), c < cols → j < rows →
      (planVertical rows cols)[c * rows + j]?
        = some (if c % 2 = 0 then rows - 1 - j else j, c) := by
  intro cols
  induction cols with
  | zero => intro c j hc; omega
  | succ n ih =>
    intro c j hc hj
    rw [planVertical_succ]
    rcases Nat.lt_or_ge c n with hcn | hcn
    · have hlt : c * rows + j < (planVertical rows n).length := by
        rw [length_planVertical]
        calc c * rows + j < c * rows + rows := by omega
          _ = (c + 1) * rows := (Nat.succ_mul c rows).symm
          _ ≤ n * rows := Nat.mul_le_mul_right _ (by omega)
          _ = rows * n := Nat.mul_comm _ _
      rw [List.getElem?_append_left hlt]
      exact ih c j hcn hj
    · have hceq : c = n := by omega
      subst hceq
      have hle : (planVertical rows c).length ≤ c * rows + j := by
        rw [length_planVertical, Nat.mul_comm]
        exact Nat.le_add_right _ _
      rw [List.getElem?_append_right hle, length_planVertical, Nat.mul_comm rows c,
        Nat.add_sub_cancel_left]
      exact getElem?_blockVertical rows c j hj

theorem getElem?_planHorizontal (cols : Nat) :
    ∀ (rows r j : Nat), r < rows → j < cols →
      (planHorizontal rows cols)[r * cols + j]?
        = some (r, if r % 2 = 0 then j else cols - 1 - j) := by
  intro rows
  induction rows with
  | zero => intro r j hr; omega
  | succ n ih =>
    intro r j hr hj
    rw [planHorizontal_succ]
    rcases Nat.lt_or_ge r n with hrn | hrn
    · have hlt : r * cols + j < (planHorizontal n cols).length := by
        rw [length_planHorizontal]
        calc r * cols + j < r * cols + cols := by omega
          _ = (r + 1) * cols := (Nat.succ_mul r cols).symm
          _ ≤ n * cols := Nat.mul_le_mul_right _ (by omega)
      rw [List.getElem?_append_left hlt]
      exact ih r j hrn hj
    · have hreq : r = n := by omega
      subst hreq
      have hle : (planHorizontal r cols).length ≤ r * cols + j := by
        rw [length_planHorizontal]
        exact Nat.le_add_right _ _
      rw [List.getElem?_append_right hle, length_planHorizontal, Nat.add_sub_cancel_left]
      exact getElem?_blockHorizontal cols r j hj

/-! ### The assembly loop refines compositing along the plan -/

theorem composeByPlan_w (stepX stepY : Int) :
    ∀ (ps : List ((Nat × Nat) × RGBAImage)) (out : RGBAImage),
      (composeByPlan stepX stepY ps out).w = out.w := by
  intro ps
  induction ps with
  | nil => intro out; rfl
  | cons p rest ih =>
    intro out
    cases p
    rw [composeByPlan, ih]
    exact foldl_compositeStep_w ..

theorem composeByPlan_h (stepX stepY : Int) :
    ∀ (ps : List ((Nat × Nat) × RGBAImage)) (out : RGBAImage),
      (composeByPlan stepX stepY ps out).h = out.h := by
  intro ps
  induction ps with
  | nil => intro out; rfl
  | cons p rest ih =>
    intro out
    cases p
    rw [composeByPlan, ih]
    exact foldl_compositeStep_h ..

theorem placeAll_eq_composeByPlan (imgs : List RGBAImage) (stepX stepY : Int) :
    ∀ (plan : List (Nat × Nat)) (idx : Nat) (out : RGBAImage),
      idx + plan.length ≤ imgs.length →
      placeAll imgs stepX stepY plan idx out
        = .ok (composeByPlan stepX stepY (plan.zip (imgs.drop idx)) out) := by
  intro plan
  induction plan with
  | nil => intro idx out _; rfl
  | cons rc rest ih =>
    intro idx out hlen
    have hidx : idx < imgs.length := by simp at hlen; omega
    rw [placeAll, List.getElem?_eq_getElem hidx, List.drop_eq_getElem_cons hidx,
      List.zip_cons_cons, composeByPlan]
    exact ih (idx + 1) _ (by simp at hlen ⊢; omega)

/-- On a duplicate-free list each member has count exactly one. -/
theorem count_one_of_nodup_mem {α : Type} [BEq α] [LawfulBEq α] {l : List α} {a : α}
    (hn : l.Nodup) (hm : a ∈ l) : l.count a = 1 := by
  induction l with
  | nil => cases hm
  | cons b t ih =>
    obtain ⟨hbt, hnt⟩ := List.nodup_cons.mp hn
    rw [List.count_cons]
    rcases List.mem_cons.mp hm with rfl | hat
    · rw [if_pos (by simp), List.count_eq_zero.mpr hbt]
    · have hne : b ≠ a := fun h => hbt (h.symm ▸ hat)
      rw [if_neg (by simpa using hne), ih hnt hat]

/-- A valid vertical run is the plan-ordered compositing trace on the fresh canvas. -/
theorem mosaic_vertical_eq (imgs : List RGBAImage) (rows cols : Nat) (ox oy : Int)
    (img0 : RGBAImage) (hlen : imgs.length = rows * cols) (hh : imgs.head? = some img0) :
    mosaic imgs rows cols ox oy "vertical"
      = .ok (composeByPlan ((img0.w : Int) - ox) ((img0.h : Int) - oy)
          ((planVertical rows cols).zip imgs)
          (newRGBA (((img0.w : Int) - ox) * (cols : Int) + ox)
            (((img0.h : Int) - oy) * (rows : Int) + oy))) := by
  cases imgs with
  | nil => cases hh
  | cons a t =>
    have haeq : img0 = a := by simpa using hh.symm
    subst haeq
    unfold mosaic
    rw [if_neg (fun hne => hne hlen)]
    dsimp only [List.head?]
    rw [if_neg (by decide), if_pos (Or.inl rfl),
      placeAll_eq_composeByPlan _ _ _ _ _ _ (by rw [length_planVertical, ← hlen]; omega),
      List.drop_zero]

/-- A valid horizontal run is the plan-ordered compositing trace on the fresh canvas. -/
theorem mosaic_horizontal_eq (imgs : List RGBAImage) (rows cols : Nat) (ox oy : Int)
    (img0 : RGBAImage) (hlen : imgs.length = rows * cols) (hh : imgs.head? = some img0) :
    mosaic imgs rows cols ox oy "horizontal"
      = .ok (composeByPlan ((img0.w : Int) - ox) ((img0.h : Int) - oy)
          ((planHorizontal rows cols).zip imgs)
          (newRGBA (((img0.w : Int) - ox) * (cols : Int) + ox)
            (((img0.h : Int) - oy) * (rows : Int) + oy))) := by
  cases imgs with
  | nil => cases hh
  | cons a t =>
    have haeq : img0 = a := by simpa using hh.symm
    subst haeq
    unfold mosaic
    rw [if_neg (fun hne => hne hlen)]
    dsimp only [List.head?]
    rw [if_pos rfl,
      placeAll_eq_composeByPlan _ _ _ _ _ _ (by rw [length_planHorizontal, ← hlen]; omega),
      List.drop_zero]

/-- The empty-string mode takes exactly the branch of `"vertical"`. -/
theorem mosaic_empty_eq_vertical (imgs : List RGBAImage) (rows cols : Nat) (ox oy : Int) :
    mosaic imgs rows cols ox oy "" = mosaic imgs rows cols ox oy "vertical" := by
  unfold mosaic
  rcases Decidable.em (imgs.length ≠ rows * cols) with hne | hne
  · rw [if_pos hne, if_pos hne]
  · rw [if_neg hne, if_neg hne]
    cases imgs with
    | nil => rfl
    | cons a t =>
      dsimp only [List.head?]
      rw [if_neg (show ¬("" = "horizontal") by decide),
        if_pos (show "" = "vertical" ∨ "" = "" from Or.inr rfl),
        if_neg (show ¬("vertical" = "horizontal") by decide),
        if_pos (show "vertical" = "vertical" ∨ "vertical" = "" from Or.inl rfl)]

/-- Any other mode string reaches the `default:` branch. -/
theorem mosaic_invalid_mode (imgs : List RGBAImage) (rows cols : Nat) (ox oy : Int)
    (s : String) (hlen : imgs.length = rows * cols) (hne : imgs ≠ [])
    (h1 : s ≠ "vertical") (h2 : s ≠ "horizontal") (h3 : s ≠ "") :
    mosaic imgs rows cols ox oy s = .error (.invalidScanMode s) := by
  cases imgs with
  | nil => exact absurd rfl hne
  | cons a t =>
    unfold mosaic
    rw [if_neg (fun hc => hc hlen)]
    dsimp only [List.head?]
    rw [if_neg h2, if_neg (by rintro (h | h) <;> [exact h1 h; exact h3 h])]

/-! ### The blend weight and its range -/

/-- The blend output value as §4.3 of the spec describes it — `alpha = min(alphaX, alphaY)`
applied per channel — except that the final conversion is the floor (truncation) the code
performs, not rounding. -/
def blendSpecPixel (tw th : Nat) (overlapX overlapY : Int) (sC dC : RGBAColor)
    (x y : Nat) : RGBAColor :=
  ⟨blendChan sC.r dC.r (min (alphaCoord x (tw : Int) overlapX) (alphaCoord y (th : Int) overlapY)),
   blendChan sC.g dC.g (min (alphaCoord x (tw : Int) overlapX) (alphaCoord y (th : Int) overlapY)),
   blendChan sC.b dC.b (min (alphaCoord x (tw : Int) overlapX) (alphaCoord y (th : Int) overlapY)),
   blendChan sC.a dC.a (min (alphaCoord x (tw : Int) overlapX) (alphaCoord y (th : Int) overlapY))⟩

theorem blendPixel_eq_spec (tw th : Nat) (overlapX overlapY : Int) (sC dC : RGBAColor)
    (x y : Nat) :
    blendPixel tw th overlapX overlapY sC dC (x, y) = blendSpecPixel tw th overlapX overlapY sC dC x y := by
  unfold blendPixel blendSpecPixel
  dsimp only
  rcases lt_or_ge (alphaCoord y (th : Int) overlapY) (alphaCoord x (tw : Int) overlapX)
    with hlt | hge
  · rw [if_pos hlt, min_eq_right (le_of_lt hlt)]
  · rw [if_neg (not_lt.mpr hge), min_eq_left hge]

theorem alphaCoord_nonneg (v : Nat) (size overlap : Int) (hv : (v : Int) < size) :
    0 ≤ alphaCoord v size overlap := by
  unfold alphaCoord
  split
  · next hcond =>
    exact div_nonneg (Nat.cast_nonneg v) (by exact_mod_cast le_of_lt hcond.1)
  · split
    · next hcond =>
      apply div_nonneg _ (by exact_mod_cast le_of_lt hcond.1)
      have : (v : ℚ) < (size : ℚ) := by exact_mod_cast hv
      have hq : (v : ℚ) + 1 ≤ (size : ℚ) := by
        have : ((v : Int) : ℚ) + 1 ≤ ((size : Int) : ℚ) := by exact_mod_cast hv
        push_cast at this ⊢
        linarith
      linarith
    · exact zero_le_one

theorem alphaCoord_le_one (v : Nat) (size overlap : Int) :
    alphaCoord v size overlap ≤ 1 := by
  unfold alphaCoord
  split
  · next hcond =>
    rw [div_le_one (by exact_mod_cast hcond.1)]
    exact_mod_cast le_of_lt hcond.2
  · split
    · next hcond =>
      rw [div_le_one (by exact_mod_cast hcond.1)]
      have h1 : size - overlap ≤ (v : Int) := hcond.2
      have : (size : ℚ) - (overlap : ℚ) ≤ (v : ℚ) := by exact_mod_cast h1
      linarith
    · exact le_refl 1

theorem blendChan_le_255 (s d : Nat) (alpha : ℚ) (h0 : 0 ≤ alpha) (h1 : alpha ≤ 1)
    (hs : s ≤ 255) (hd : d ≤ 255) : blendChan s d alpha ≤ 255 := by
  unfold blendChan
  have hval : alpha * (s : ℚ) + (1 - alpha) * (d : ℚ) ≤ 255 := by
    have hs' : (s : ℚ) ≤ 255 := by exact_mod_cast hs
    have hd' : (d : ℚ) ≤ 255 := by exact_mod_cast hd
    calc alpha * (s : ℚ) + (1 - alpha) * (d : ℚ)
        ≤ alpha * 255 + (1 - alpha) * 255 := by
          apply add_le_add (mul_le_mul_of_nonneg_left hs' h0)
            (mul_le_mul_of_nonneg_left hd' (by linarith))
      _ = 255 := by ring
  have hfl : ⌊alpha * (s : ℚ) + (1 - alpha) * (d : ℚ)⌋ ≤ (255 : Int) := by
    have := Int.floor_le_floor hval
    simpa using this
  calc (⌊alpha * (s : ℚ) + (1 - alpha) * (d : ℚ)⌋).toNat ≤ (255 : Int).toNat :=
        Int.toNat_le_toNat hfl
    _ = 255 := rfl

/-! ### Claims -/

/-- C1: the claim says each destination channel becomes
`saturating_add(current_destination_value, source_value)`, clamping the arithmetic sum at
the channel maximum.  The code's `uint8` addition wraps modulo 256 and its clamp can never
fire, so for two channel values of 200 the composited value is `(200+200) % 256 = 144`,
not the saturated `min(400, 255) = 255`: the code contradicts its own dead clamping code
and the spec's stated intent. -/
theorem claim1_sum_wraps_instead_of_saturating :
    (sumImages (solid 1 1 200) (solid 1 1 200) 0 0).pix 0 0 = ⟨144, 144, 144, 144⟩ ∧
    (200 + 200) % 256 = 144 ∧ min (200 + 200) 255 = 255 ∧ (144 : Nat) ≠ 255 := by
  decide

/-- C4 counterexample: a sequence of two tiles of different sizes (2×2 and 3×5) passes the
assembler without any error, so the claimed `TileSizeMismatch` validation does not exist. -/
theorem claim4_counterexample :
    (solid 2 2 0).w ≠ (solid 3 5 0).w ∧
    (mosaic [solid 2 2 0, solid 3 5 0] 1 2 0 0 "vertical").isOk = true := by
  decide

/-- C4 (amended): the assembler performs no tile-size validation at all; any sequence of
tiles with inconsistent dimensions that passes the count check is accepted and composited
(layout taken from the first tile, stray pixels clipped), with no `TileSizeMismatch`
error. -/
theorem claim4_no_tile_size_validation (t1 t2 : RGBAImage) (ox oy : Int)
    (hmismatch : t1.w ≠ t2.w ∨ t1.h ≠ t2.h) :
    (mosaic [t1, t2] 1 2 ox oy "vertical").isOk = true := by
  rw [mosaic_vertical_eq [t1, t2] 1 2 ox oy t1 rfl rfl]
  rfl

theorem claim4_witness :
    (mosaic [solid 1 1 0, solid 2 3 0] 1 2 5 7 "vertical").isOk = true :=
  claim4_no_tile_size_validation (solid 1 1 0) (solid 2 3 0) 5 7 (Or.inl (by decide))

/-- C5 counterexample: with tile width 2 and `overlapX = 2` the step `stepX = 2 − 2 = 0` is
non-positive, yet the assembler succeeds instead of failing with the claimed
`DimensionError`. -/
theorem claim5_counterexample :
    ((solid 2 2 7).w : Int) - 2 = 0 ∧
    (mosaic [solid 2 2 7] 1 1 2 0 "vertical").isOk = true := by
  decide

/-- C5 (amended): the assembler computes `stepX = W − overlapX` and `stepY = H − overlapY`
but performs no positivity validation on them or on the canvas dimensions: there is no
`DimensionError`, and assembly proceeds for every overlap value (the canvas rectangle is
canonicalized by the image library), whenever the count check passes, the tile list is
non-empty and the scan mode is recognized. -/
theorem claim5_no_dimension_validation (imgs : List RGBAImage) (rows cols : Nat)
    (ox oy : Int) (snake : String) (hlen : imgs.length = rows * cols) (hne : imgs ≠ [])
    (hs : snake = "vertical" ∨ snake = "horizontal" ∨ snake = "") :
    (mosaic imgs rows cols ox oy snake).isOk = true := by
  obtain ⟨a, t, rfl⟩ := List.exists_cons_of_ne_nil hne
  rcases hs with h | h | h <;> subst h
  · rw [mosaic_vertical_eq _ _ _ _ _ a hlen rfl]; rfl
  · rw [mosaic_horizontal_eq _ _ _ _ _ a hlen rfl]; rfl
  · rw [mosaic_empty_eq_vertical, mosaic_vertical_eq _ _ _ _ _ a hlen rfl]; rfl

theorem claim5_witness :
    (mosaic [solid 2 2 7] 1 1 9 9 "horizontal").isOk = true :=
  claim5_no_dimension_validation [solid 2 2 7] 1 1 9 9 "horizontal" rfl
    (List.cons_ne_nil _ _) (Or.inr (Or.inl rfl))

/-- C8: any scan-mode string other than `"vertical"`, `"horizontal"` and `""` makes the
assembler fail with `InvalidScanMode` (for inputs that reach the scan-mode switch: the
count check passed and the first tile exists), and the empty string is treated exactly as
`"vertical"`. -/
theorem claim8_scan_mode_handling (imgs : List RGBAImage) (rows cols : Nat) (ox oy : Int) :
    (∀ s : String, imgs.length = rows * cols → imgs ≠ [] →
      s ≠ "vertical" → s ≠ "horizontal" → s ≠ "" →
      mosaic imgs rows cols ox oy s = .error (.invalidScanMode s)) ∧
    mosaic imgs rows cols ox oy "" = mosaic imgs rows cols ox oy "vertical" :=
  ⟨fun s h1 h2 h3 h4 h5 => mosaic_invalid_mode imgs rows cols ox oy s h1 h2 h3 h4 h5,
   mosaic_empty_eq_vertical imgs rows cols ox oy⟩

theorem claim8_witness :
    mosaic [solid 1 1 0] 1 1 0 0 "diagonal" = .error (.invalidScanMode "diagonal") ∧
    mosaic [solid 1 1 0] 1 1 0 0 "" = mosaic [solid 1 1 0] 1 1 0 0 "vertical" :=
  ⟨(claim8_scan_mode_handling [solid 1 1 0] 1 1 0 0).1 "diagonal" rfl
      (List.cons_ne_nil _ _) (by decide) (by decide) (by decide),
   (claim8_scan_mode_handling [solid 1 1 0] 1 1 0 0).2⟩

/-- C9: both compositing functions leave every canvas pixel outside the destination
rectangle `[x0, x0+srcW) × [y0, y0+srcH)` exactly unchanged. -/
theorem claim9_outside_rectangle_unchanged (dst src : RGBAImage)
    (x0 y0 overlapX overlapY px py : Int)
    (hout : ¬(x0 ≤ px ∧ px < x0 + (src.w : Int) ∧ y0 ≤ py ∧ py < y0 + (src.h : Int))) :
    (sumImages dst src x0 y0).pix px py = dst.pix px py ∧
    (blendImages dst src x0 y0 overlapX overlapY).pix px py = dst.pix px py := by
  have hmiss : ∀ p ∈ allPixels src.w src.h,
      ¬(px = x0 + (p.1 : Int) ∧ py = y0 + (p.2 : Int)) := by
    intro p hp ⟨he1, he2⟩
    obtain ⟨hp1, hp2⟩ := (mem_allPixels _ _ p).mp hp
    apply hout
    have hc1 : (p.1 : Int) < (src.w : Int) := by exact_mod_cast hp1
    have hc2 : (p.2 : Int) < (src.h : Int) := by exact_mod_cast hp2
    have hn1 : (0 : Int) ≤ (p.1 : Int) := Int.natCast_nonneg _
    have hn2 : (0 : Int) ≤ (p.2 : Int) := Int.natCast_nonneg _
    omega
  exact ⟨foldl_compositeStep_pix_ne _ _ _ _ _ _ _ _ hmiss,
    foldl_compositeStep_pix_ne _ _ _ _ _ _ _ _ hmiss⟩

theorem claim9_witness :
    (sumImages (solid 2 2 9) (solid 1 1 5) 0 0).pix 1 1 = (solid 2 2 9).pix 1 1 ∧
    (blendImages (solid 2 2 9) (solid 1 1 5) 0 0 0 0).pix 1 1 = (solid 2 2 9).pix 1 1 :=
  claim9_outside_rectangle_unchanged (solid 2 2 9) (solid 1 1 5) 0 0 0 0 1 1 (by decide)

/-- C10: with `rows ≥ 1`, `cols ≥ 1` and `len(imgs) = rows·cols` the assembler never hits
an out-of-range tile access (modelled as the `indexOutOfRange` outcome of the Go panic);
the precondition is necessary because the count check alone also passes for
`rows·cols = 0` with an empty tile list, where reading `imgs[0]` panics. -/
theorem claim10_index_safety (imgs : List RGBAImage) (rows cols : Nat) (ox oy : Int)
    (snake : String) (hr : 1 ≤ rows) (hc : 1 ≤ cols) (hlen : imgs.length = rows * cols) :
    mosaic imgs rows cols ox oy snake ≠ .error .indexOutOfRange ∧
    mosaic [] 0 0 ox oy snake = .error .indexOutOfRange := by
  constructor
  · have hpos : 0 < imgs.length := by
      rw [hlen]
      calc 0 < 1 * 1 := by decide
        _ ≤ rows * cols := Nat.mul_le_mul hr hc
    obtain ⟨a, t, rfl⟩ := List.exists_cons_of_ne_nil (List.length_pos.mp hpos)
    by_cases h1 : snake = "vertical"
    · subst h1
      rw [mosaic_vertical_eq _ _ _ _ _ a hlen rfl]
      simp
    by_cases h2 : snake = "horizontal"
    · subst h2
      rw [mosaic_horizontal_eq _ _ _ _ _ a hlen rfl]
      simp
    by_cases h3 : snake = ""
    · subst h3
      rw [mosaic_empty_eq_vertical, mosaic_vertical_eq _ _ _ _ _ a hlen rfl]
      simp
    · rw [mosaic_invalid_mode _ _ _ _ _ _ hlen (List.cons_ne_nil _ _) h1 h2 h3]
      simp
  · rfl

theorem claim10_witness :
    mosaic [solid 1 1 3] 1 1 0 0 "vertical" ≠ .error .indexOutOfRange ∧
    mosaic [] 0 0 0 0 "vertical" = .error .indexOutOfRange :=
  claim10_index_safety [solid 1 1 3] 1 1 0 0 "vertical" (by decide) (by decide) rfl

/-- C2: for `rows, cols ≥ 1` the placement order is the exact serpentine sequence —
both plans have length `rows·cols`, every pair in `[0,rows) × [0,cols)` is visited exactly
once, the `(c·rows + j)`-th vertical entry is row `rows−1−j` for even `c` and row `j` for
odd `c` in column `c` (mirrored for horizontal), and a valid run composites the `i`-th
input tile at pixel offset `(col·stepX, row·stepY)` of the `i`-th planned pair. -/
theorem claim2_serpentine_order (rows cols : Nat) (hr : 1 ≤ rows) (hc : 1 ≤ cols) :
    ((planVertical rows cols).length = rows * cols ∧
     (planHorizontal rows cols).length = rows * cols) ∧
    (∀ r c, r < rows → c < cols →
      (planVertical rows cols).count (r, c) = 1 ∧
      (planHorizontal rows cols).count (r, c) = 1) ∧
    (∀ c j, c < cols → j < rows →
      (planVertical rows cols)[c * rows + j]?
        = some (if c % 2 = 0 then rows - 1 - j else j, c)) ∧
    (∀ r j, r < rows → j < cols →
      (planHorizontal rows cols)[r * cols + j]?
        = some (r, if r % 2 = 0 then j else cols - 1 - j)) ∧
    (∀ (imgs : List RGBAImage) (ox oy : Int) (img0 : RGBAImage),
      imgs.length = rows * cols → imgs.head? = some img0 →
      mosaic imgs rows cols ox oy "vertical"
        = .ok (composeByPlan ((img0.w : Int) - ox) ((img0.h : Int) - oy)
            ((planVertical rows cols).zip imgs)
            (newRGBA (((img0.w : Int) - ox) * (cols : Int) + ox)
              (((img0.h : Int) - oy) * (rows : Int) + oy))) ∧
      mosaic imgs rows cols ox oy "horizontal"
        = .ok (composeByPlan ((img0.w : Int) - ox) ((img0.h : Int) - oy)
            ((planHorizontal rows cols).zip imgs)
            (newRGBA (((img0.w : Int) - ox) * (cols : Int) + ox)
              (((img0.h : Int) - oy) * (rows : Int) + oy)))) := by
  refine ⟨⟨length_planVertical rows cols, length_planHorizontal rows cols⟩,
    fun r c hrr hcc => ⟨?_, ?_⟩,
    fun c j hcc hj => getElem?_planVertical rows cols c j hcc hj,
    fun r j hrr hj => getElem?_planHorizontal cols rows r j hrr hj,
    fun imgs ox oy img0 hlen hh =>
      ⟨mosaic_vertical_eq imgs rows cols ox oy img0 hlen hh,
       mosaic_horizontal_eq imgs rows cols ox oy img0 hlen hh⟩⟩
  · exact count_one_of_nodup_mem (nodup_planVertical rows cols)
      ((mem_planVertical rows cols (r, c)).mpr ⟨hrr, hcc⟩)
  · exact count_one_of_nodup_mem (nodup_planHorizontal rows cols)
      ((mem_planHorizontal rows cols (r, c)).mpr ⟨hrr, hcc⟩)

theorem claim2_witness :
    (planVertical 2 3).length = 2 * 3 ∧
    (planHorizontal 2 3).count (1, 2) = 1 ∧
    (planVertical 2 3)[1 * 2 + 0]? = some (if 1 % 2 = 0 then 2 - 1 - 0 else 0, 1) :=
  ⟨(claim2_serpentine_order 2 3 (by decide) (by decide)).1.1,
   ((claim2_serpentine_order 2 3 (by decide) (by decide)).2.1 1 2 (by decide) (by decide)).2,
   (claim2_serpentine_order 2 3 (by decide) (by decide)).2.2.1 1 0 (by decide) (by decide)⟩

/-- C6 counterexample: in the 2×2 vertical example the tile at sequence index 3 is placed
at grid `(1,1)` — not the claimed `(0,1)` — and its pixel offset with `stepX = stepY = 80`
is `(80, 80)`, not the claimed `(80, 0)` (grid `(0,1)` and offset `(80,0)` belong to
sequence index 2). -/
theorem claim6_counterexample :
    (planVertical 2 2)[3]? = some (1, 1) ∧ ((1, 1) : Nat × Nat) ≠ (0, 1) ∧
    ((1 : Int) * ((100 : Int) - 20), (1 : Int) * ((100 : Int) - 20)) ≠ ((80 : Int), (0 : Int)) := by
  decide

/-- C6 (amended): for 4 tiles of 100×100 with `rows = cols = 2`, `overlapX = overlapY = 20`
and vertical scan, the canvas is 180×180 and the placement order is
`(1,0), (0,0), (0,1), (1,1)`: index 0 lands at grid `(1,0)` with offset `(0, 80)` and index
3 lands at grid `(1,1)` with offset `(80, 80)` (index 2 is the tile at grid `(0,1)`, offset
`(80, 0)`). -/
theorem claim6_end_to_end (t0 t1 t2 t3 : RGBAImage)
    (h0w : t0.w = 100) (h0h : t0.h = 100) (h1w : t1.w = 100) (h1h : t1.h = 100)
    (h2w : t2.w = 100) (h2h : t2.h = 100) (h3w : t3.w = 100) (h3h : t3.h = 100) :
    mosaic [t0, t1, t2, t3] 2 2 20 20 "vertical"
      = .ok (composeByPlan 80 80 [((1, 0), t0), ((0, 0), t1), ((0, 1), t2), ((1, 1), t3)]
          (newRGBA 180 180)) ∧
    ∀ out, mosaic [t0, t1, t2, t3] 2 2 20 20 "vertical" = .ok out →
      out.w = 180 ∧ out.h = 180 := by
  have hmain : mosaic [t0, t1, t2, t3] 2 2 20 20 "vertical"
      = .ok (composeByPlan 80 80 [((1, 0), t0), ((0, 0), t1), ((0, 1), t2), ((1, 1), t3)]
          (newRGBA 180 180)) := by
    rw [mosaic_vertical_eq [t0, t1, t2, t3] 2 2 20 20 t0 rfl rfl, h0w, h0h,
      show planVertical 2 2 = [(1, 0), (0, 0), (0, 1), (1, 1)] from by decide]
    norm_num
  refine ⟨hmain, fun out hout => ?_⟩
  rw [hmain] at hout
  cases hout
  rw [composeByPlan_w, composeByPlan_h]
  exact ⟨rfl, rfl⟩

theorem claim6_witness :
    mosaic [solid 100 100 1, solid 100 100 2, solid 100 100 3, solid 100 100 4]
        2 2 20 20 "vertical"
      = .ok (composeByPlan 80 80
          [((1, 0), solid 100 100 1), ((0, 0), solid 100 100 2),
           ((0, 1), solid 100 100 3), ((1, 1), solid 100 100 4)]
          (newRGBA 180 180)) ∧
    ∀ out, mosaic [solid 100 100 1, solid 100 100 2, solid 100 100 3, solid 100 100 4]
        2 2 20 20 "vertical" = .ok out → out.w = 180 ∧ out.h = 180 :=
  claim6_end_to_end (solid 100 100 1) (solid 100 100 2) (solid 100 100 3) (solid 100 100 4)
    rfl rfl rfl rfl rfl rfl rfl rfl

/-- C7: for tiles of size W×H, overlaps `0 ≤ ox < W`, `0 ≤ oy < H` and a grid with
`rows, cols ≥ 1`, the canvas created by the assembler has width `(W−ox)·cols + ox` and
height `(H−oy)·rows + oy`. -/
theorem claim7_canvas_size (W H rows cols : Nat) (ox oy : Int) (imgs : List RGBAImage)
    (snake : String) (hr : 1 ≤ rows) (hc : 1 ≤ cols)
    (hox0 : 0 ≤ ox) (hoxW : ox < (W : Int)) (hoy0 : 0 ≤ oy) (hoyH : oy < (H : Int))
    (hlen : imgs.length = rows * cols)
    (hdim : ∀ img ∈ imgs, img.w = W ∧ img.h = H)
    (hs : snake = "vertical" ∨ snake = "horizontal") :
    ∃ out, mosaic imgs rows cols ox oy snake = .ok out ∧
      (out.w : Int) = ((W : Int) - ox) * (cols : Int) + ox ∧
      (out.h : Int) = ((H : Int) - oy) * (rows : Int) + oy := by
  have hpos : 0 < imgs.length := by
    rw [hlen]
    calc 0 < 1 * 1 := by decide
      _ ≤ rows * cols := Nat.mul_le_mul hr hc
  obtain ⟨a, t, rfl⟩ := List.exists_cons_of_ne_nil (List.length_pos.mp hpos)
  obtain ⟨haW, haH⟩ := hdim a (List.mem_cons_self _ _)
  have hWnn : (0 : Int) ≤ ((W : Int) - ox) * (cols : Int) + ox :=
    add_nonneg (mul_nonneg (by omega) (Int.natCast_nonneg _)) hox0
  have hHnn : (0 : Int) ≤ ((H : Int) - oy) * (rows : Int) + oy :=
    add_nonneg (mul_nonneg (by omega) (Int.natCast_nonneg _)) hoy0
  rcases hs with h | h <;> subst h
  · refine ⟨_, mosaic_vertical_eq _ _ _ _ _ a hlen rfl, ?_, ?_⟩
    · rw [composeByPlan_w]
      show (((((a.w : Int) - ox) * (cols : Int) + ox)).natAbs : Int) = _
      rw [haW, Int.natAbs_of_nonneg hWnn]
    · rw [composeByPlan_h]
      show (((((a.h : Int) - oy) * (rows : Int) + oy)).natAbs : Int) = _
      rw [haH, Int.natAbs_of_nonneg hHnn]
  · refine ⟨_, mosaic_horizontal_eq _ _ _ _ _ a hlen rfl, ?_, ?_⟩
    · rw [composeByPlan_w]
      show (((((a.w : Int) - ox) * (cols : Int) + ox)).natAbs : Int) = _
      rw [haW, Int.natAbs_of_nonneg hWnn]
    · rw [composeByPlan_h]
      show (((((a.h : Int) - oy) * (rows : Int) + oy)).natAbs : Int) = _
      rw [haH, Int.natAbs_of_nonneg hHnn]

theorem claim7_witness :
    ∃ out, mosaic [solid 3 2 5] 1 1 1 0 "vertical" = .ok out ∧
      (out.w : Int) = (((3 : Nat) : Int) - 1) * ((1 : Nat) : Int) + 1 ∧
      (out.h : Int) = (((2 : Nat) : Int) - 0) * ((1 : Nat) : Int) + 0 :=
  claim7_canvas_size 3 2 1 1 1 0 [solid 3 2 5] "vertical" (by decide) (by decide)
    (by decide) (by decide) (by decide) (by decide) rfl
    (fun img him => by
      rw [List.mem_singleton] at him
      subst him
      exact ⟨rfl, rfl⟩)
    (Or.inl rfl)

/-- C3 counterexample: at `x = 1`, `overlapX = 2`, `overlapY = 0` the blend weight is
`alpha = min(1/2, 1) = 1/2`; for source value 0 over destination value 255 the code writes
`uint8(127.5) = 127` (truncation), while the claim's `round(alpha·src + (1−alpha)·dst)`
is `round(127.5) = 128`. -/
theorem claim3_counterexample :
    (blendImages (solid 4 1 255) (solid 4 1 0) 0 0 2 0).pix 1 0 = ⟨127, 127, 127, 127⟩ ∧
    round (((1 : ℚ) / 2) * 0 + (1 - (1 : ℚ) / 2) * 255) = 128 ∧
    (127 : Nat) ≠ 128 := by
  refine ⟨?_, by norm_num [round_eq], by decide⟩
  have h : allPixels 4 1 = [(0, 0), (1, 0), (2, 0), (3, 0)] := by decide
  simp only [blendImages, solid, h, List.foldl]
  norm_num [compositeStep, RGBAImage.SetRGBA, RGBAImage.RGBAAt, blendPixel, blendChan,
    alphaCoord]
  decide

/-- C3 (amended): for every source pixel `(x, y)` whose destination lands inside the
canvas, the Blend policy writes per channel
`floor(alpha · source_value + (1 − alpha) · destination_value)` — truncation, not rounding
— with `alpha = min(alphaX, alphaY)` defined from the overlaps exactly as claimed; the
result needs no clamping since the weight lies in `[0, 1]`, keeping every output channel
within the representable range whenever the inputs are. -/
theorem claim3_blend_floor_formula (dst src : RGBAImage) (x0 y0 overlapX overlapY : Int)
    (x y : Nat) (hx : x < src.w) (hy : y < src.h)
    (hx1 : 0 ≤ x0 + (x : Int)) (hx2 : x0 + (x : Int) < (dst.w : Int))
    (hy1 : 0 ≤ y0 + (y : Int)) (hy2 : y0 + (y : Int) < (dst.h : Int)) :
    (blendImages dst src x0 y0 overlapX overlapY).pix (x0 + (x : Int)) (y0 + (y : Int))
      = blendSpecPixel src.w src.h overlapX overlapY (src.RGBAAt x y)
          (dst.RGBAAt (x0 + (x : Int)) (y0 + (y : Int))) x y ∧
    0 ≤ min (alphaCoord x (src.w : Int) overlapX) (alphaCoord y (src.h : Int) overlapY) ∧
    min (alphaCoord x (src.w : Int) overlapX) (alphaCoord y (src.h : Int) overlapY) ≤ 1 ∧
    ∀ s d : Nat, s ≤ 255 → d ≤ 255 →
      blendChan s d
        (min (alphaCoord x (src.w : Int) overlapX) (alphaCoord y (src.h : Int) overlapY))
        ≤ 255 := by
  have ha0 : 0 ≤ min (alphaCoord x (src.w : Int) overlapX)
      (alphaCoord y (src.h : Int) overlapY) :=
    le_min (alphaCoord_nonneg x _ _ (by exact_mod_cast hx))
      (alphaCoord_nonneg y _ _ (by exact_mod_cast hy))
  have ha1 : min (alphaCoord x (src.w : Int) overlapX)
      (alphaCoord y (src.h : Int) overlapY) ≤ 1 :=
    le_trans (min_le_left _ _) (alphaCoord_le_one x _ _)
  refine ⟨?_, ha0, ha1, fun s d hs hd => blendChan_le_255 s d _ ha0 ha1 hs hd⟩
  have h1 := foldl_compositeStep_pix_hit (blendPixel src.w src.h overlapX overlapY)
    src x0 y0 x y (allPixels src.w src.h) dst
    ((mem_allPixels _ _ (x, y)).mpr ⟨hx, hy⟩) (nodup_allPixels _ _) hx1 hx2 hy1 hy2
  exact h1.trans (blendPixel_eq_spec src.w src.h overlapX overlapY _ _ x y)

theorem claim3_witness :
    (blendImages (solid 4 1 255) (solid 4 1 0) 0 0 2 0).pix
        (0 + ((1 : Nat) : Int)) (0 + ((0 : Nat) : Int))
      = blendSpecPixel (solid 4 1 0).w (solid 4 1 0).h 2 0
          ((solid 4 1 0).RGBAAt 1 0)
          ((solid 4 1 255).RGBAAt (0 + ((1 : Nat) : Int)) (0 + ((0 : Nat) : Int))) 1 0 ∧
    0 ≤ min (alphaCoord 1 ((solid 4 1 0).w : Int) 2) (alphaCoord 0 ((solid 4 1 0).h : Int) 0) ∧
    min (alphaCoord 1 ((solid 4 1 0).w : Int) 2) (alphaCoord 0 ((solid 4 1 0).h : Int) 0) ≤ 1 ∧
    ∀ s d : Nat, s ≤ 255 → d ≤ 255 →
      blendChan s d
        (min (alphaCoord 1 ((solid 4 1 0).w : Int) 2) (alphaCoord 0 ((solid 4 1 0).h : Int) 0))
        ≤ 255 :=
  claim3_blend_floor_formula (solid 4 1 255) (solid 4 1 0) 0 0 2 0 1 0
    (by decide) (by decide) (by decide) (by decide) (by decide) (by decide)
